import Mathlib

/-!
Verification of the `water_buffer` repository (`src/src/buffer/mod.rs`).

The Rust crate compiles the single `WaterBuffer` struct in two shapes selected
by the `circular_buffer` cargo feature.  We embed the two shapes as two Lean
structures, `WaterBufferL` (linear mode) and `WaterBufferC` (circular mode).
The raw allocation (`pointer`, `cap` elements) is embedded as a `List Nat`
`data` whose length is the capacity; a one-byte store `*ptr.add(i) = x` becomes
`data.set i x` and `ptr::copy_nonoverlapping(src, ptr.add(i), n)` becomes the
sequential-store function `listCopy` below.  `usize` values are embedded as
`Nat`; every subtraction the code performs is guarded in context so `Nat`
truncated subtraction agrees with `usize` arithmetic on the states considered.
A Rust `panic!` is embedded by returning `Option.none`.
-/

/-- Sequential byte stores: `listCopy d pos s` writes the bytes of `s` at
positions `pos, pos+1, ...` of `d`; this is the embedding of
`ptr::copy_nonoverlapping(s.as_ptr(), ptr.add(pos), s.len())`.  (A store past
the end of `d` is dropped by `List.set`; the real code would write out of the
allocation there, which is exactly what the C2 analysis exhibits.) -/
def listCopy (d : List Nat) (pos : Nat) : List Nat → List Nat
  | [] => d
  | b :: rest => listCopy (d.set pos b) (pos + 1) rest

/-- Linear-mode `WaterBuffer` (the crate built without `circular_buffer`):
fields `cap`, `start_pos`, `filled_data_length` and the owned allocation. -/
structure WaterBufferL where
  cap : Nat
  start_pos : Nat
  filled_data_length : Nat
  data : List Nat
deriving Repr, DecidableEq

namespace WaterBufferL

/-- `WaterBuffer::with_capacity` (linear): zeroed cursors over a fresh
allocation of `cap` uninitialized bytes (the theorems quantify over the
initial contents `init`, only requiring `init.length = cap`). -/
def with_capacity (cap : Nat) (init : List Nat) : WaterBufferL :=
  { cap := cap, start_pos := 0, filled_data_length := 0, data := init }

/-- `len()` in linear mode returns `filled_data_length`. -/
def len (b : WaterBufferL) : Nat := b.filled_data_length

/-- `un_initialized_remaining()` (linear) = `cap - filled_data_length`;
this is also what the `BufMut::remaining_mut` impl returns. -/
def un_initialized_remaining (b : WaterBufferL) : Nat :=
  b.cap - b.filled_data_length

/-- `available()` = `cap - filled_data_length`. -/
def available (b : WaterBufferL) : Nat := b.cap - b.filled_data_length

/-- `reset()` (linear): `filled_data_length = 0; start_pos = 0`. -/
def reset (b : WaterBufferL) : WaterBufferL :=
  { b with start_pos := 0, filled_data_length := 0 }

/-- `clear()` just calls `reset()`. -/
def clear (b : WaterBufferL) : WaterBufferL := b.reset

/-- `expand(n)`: `n += cap; realloc(.., n); cap = n`.  `realloc` preserves the
old `cap` bytes and appends `n` uninitialized bytes (embedded as zeros). -/
def expand (b : WaterBufferL) (n : Nat) : WaterBufferL :=
  { b with cap := b.cap + n, data := b.data ++ List.replicate n 0 }

/-- `ap_size(additional)`: growth-size heuristic of the linear build. -/
def ap_size (b : WaterBufferL) (additional : Nat) : Nat :=
  if b.cap = 0 then
    if additional < 64 then 64 else additional
  else
    let needed := b.filled_data_length + additional
    let cap := b.cap * 2
    if cap > needed then cap else needed

/-- `shift_data()`: copy the `filled_data_length` live bytes from offset
`start_pos` to offset 0 and zero `start_pos`.  (The source uses
`ptr::copy_nonoverlapping`; we embed the copy it describes.) -/
def shift_data (b : WaterBufferL) : WaterBufferL :=
  { b with
    data := listCopy b.data 0 ((b.data.drop b.start_pos).take b.filled_data_length),
    start_pos := 0 }

/-- `reserve(len)`: clear when empty, return early when
`len < remaining_mut()`, otherwise compact or expand. -/
def reserve (b0 : WaterBufferL) (len : Nat) : WaterBufferL :=
  let b := if b0.filled_data_length = 0 then b0.clear else b0
  if len < b.un_initialized_remaining then b
  else
    let raw_available := b.cap - (b.start_pos + b.filled_data_length)
    if raw_available < len then
      if b.start_pos ≥ b.filled_data_length ∧ b.available ≥ len then b.shift_data
      else b.expand (b.ap_size len)
    else b

/-- `extend_from_slice(slice)` (linear): `reserve(len)` then one bulk copy at
`start_pos + filled_data_length`, then `filled_data_length += len`. -/
def extend_from_slice (b0 : WaterBufferL) (slice : List Nat) : WaterBufferL :=
  let b := b0.reserve slice.length
  { b with
    data := listCopy b.data (b.start_pos + b.filled_data_length) slice,
    filled_data_length := b.filled_data_length + slice.length }

/-- `push(item)` (linear): compact or expand when `start_pos + filled ≥ cap`,
then store one byte at `start_pos + filled` and bump the length. -/
def push (b0 : WaterBufferL) (item : Nat) : WaterBufferL :=
  let b :=
    if b0.start_pos + b0.filled_data_length ≥ b0.cap then
      if b0.start_pos > 0 then b0.shift_data
      else b0.expand (if b0.cap = 0 then 64 else b0.cap)
    else b0
  { b with
    data := b.data.set (b.start_pos + b.filled_data_length) item,
    filled_data_length := b.filled_data_length + 1 }

/-- `advance(n)`: panics (`none`) when `n > filled_data_length`, else moves
the read cursor forward. -/
def advance (b : WaterBufferL) (n : Nat) : Option WaterBufferL :=
  if n > b.filled_data_length then none
  else some { b with
    start_pos := b.start_pos + n,
    filled_data_length := b.filled_data_length - n }

/-- The state `advance(n)` produces on success (same mutation as the source). -/
def advanced (b : WaterBufferL) (n : Nat) : WaterBufferL :=
  { b with
    start_pos := b.start_pos + n,
    filled_data_length := b.filled_data_length - n }

/-- `advance_mut(n)`: unchecked `filled_data_length += n`. -/
def advance_mut (b : WaterBufferL) (n : Nat) : WaterBufferL :=
  { b with filled_data_length := b.filled_data_length + n }

/-- `IoBufMut::set_init(pos)`: also an unchecked `filled_data_length += pos`. -/
def set_init (b : WaterBufferL) (pos : Nat) : WaterBufferL :=
  { b with filled_data_length := b.filled_data_length + pos }

/-- `Index<RangeFull>` (linear): the slice of `filled_data_length` bytes
starting at `start_pos` — the read view `b[..]` / `as_slice`. -/
def asSlice (b : WaterBufferL) : List Nat :=
  (b.data.drop b.start_pos).take b.filled_data_length

/-- `Index<Range<usize>>`: panics (`none`) when `start > end` or
`end > filled_data_length`; otherwise the source builds the slice
`from_raw_parts(pointer.add(start_pos + start), start_pos + end)` — note the
second argument of `from_raw_parts` is the LENGTH of the produced slice. -/
def indexRange (b : WaterBufferL) (s e : Nat) : Option (List Nat) :=
  if s > e ∨ e > b.filled_data_length then none
  else some ((b.data.drop (b.start_pos + s)).take (b.start_pos + e))

/-- `IndexMut<Range<usize>>`: panics only when `start > end` (no check of
`end` against the length); the produced view is
`from_raw_parts_mut(pointer.add(start_pos + start), end + start_pos)`. -/
def indexMutRange (b : WaterBufferL) (s e : Nat) : Option (List Nat) :=
  if s > e then none
  else some ((b.data.drop (b.start_pos + s)).take (e + b.start_pos))

end WaterBufferL

/-- Circular-mode `WaterBuffer` (the crate built with `circular_buffer`):
adds the `circular_position : Option<usize>` write cursor. -/
structure WaterBufferC where
  cap : Nat
  start_pos : Nat
  circular_position : Option Nat
  filled_data_length : Nat
  data : List Nat
deriving Repr, DecidableEq

namespace WaterBufferC

/-- `WaterBuffer::with_capacity` (circular): zeroed cursors, no wrap yet. -/
def with_capacity (cap : Nat) (init : List Nat) : WaterBufferC :=
  { cap := cap, start_pos := 0, circular_position := none,
    filled_data_length := 0, data := init }

/-- `len()` (circular): capped at `cap` once `filled_data_length ≥ cap`. -/
def len (b : WaterBufferC) : Nat :=
  if b.filled_data_length ≥ b.cap then b.cap else b.filled_data_length

/-- `reset()` (circular). -/
def reset (b : WaterBufferC) : WaterBufferC :=
  { b with start_pos := 0, filled_data_length := 0, circular_position := none }

/-- `clear()` just calls `reset()`. -/
def clear (b : WaterBufferC) : WaterBufferC := b.reset

/-- `push(item)` (circular): while not full, fill forward at
`filled_data_length`; once full, overwrite at
`circular_position.unwrap_or(&0)` and advance the cursor with wrap. -/
def push (b : WaterBufferC) (item : Nat) : WaterBufferC :=
  if b.filled_data_length ≥ b.cap then
    let p := b.circular_position.getD 0
    let n := p + 1
    { b with data := b.data.set p item,
             circular_position := some (if n ≥ b.cap then 0 else n) }
  else
    { b with data := b.data.set b.filled_data_length item,
             filled_data_length := b.filled_data_length + 1 }

/-- One iteration of the `while must_write_len > 0` loop of the circular
`extend_from_slice`: resolve the write position (the `unwrap_or_else` closure
sets `circular_position = Some(0)` as a side effect when the buffer is
already full), clamp it, copy the next contiguous chunk, and update
`filled_data_length` / `circular_position` exactly as the source does.
Returns the new state and the not-yet-written remainder of the slice. -/
def extendStep (b : WaterBufferC) (slice : List Nat) : WaterBufferC × List Nat :=
  let pc : Nat × WaterBufferC :=
    match b.circular_position with
    | some p => (p, b)
    | none =>
      let filled := b.filled_data_length + b.start_pos
      if filled ≥ b.cap then (0, { b with circular_position := some 0 })
      else (filled, b)
  let b1 := pc.2
  let position_to_write := if pc.1 ≥ b1.cap then 0 else pc.1
  let available_len := min (b1.cap - position_to_write) slice.length
  let b2 := { b1 with
    data := listCopy b1.data position_to_write (slice.take available_len) }
  let b3 :=
    if b2.filled_data_length < b2.cap then
      { b2 with filled_data_length := b2.filled_data_length + available_len }
    else
      match b2.circular_position with
      | some cp =>
        let cp2 := cp + available_len
        { b2 with circular_position := some (if cp2 ≥ b2.cap then 0 else cp2) }
      | none =>
        let p := position_to_write + available_len
        { b2 with circular_position := some (if p ≥ b2.cap then 0 else p) }
  (b3, slice.drop available_len)

/-- The write loop of the circular `extend_from_slice`.  When `cap > 0` each
iteration consumes at least one byte, so `slice.length` fuel always suffices
(`extend_from_slice` below calls it with exactly that much); fuel exhaustion
(reachable only for `cap = 0`, where the real loop would never terminate)
returns the state and remainder unchanged. -/
def extendLoop : Nat → WaterBufferC → List Nat → WaterBufferC × List Nat
  | 0, b, slice => (b, slice)
  | fuel + 1, b, slice =>
    if slice.isEmpty then (b, slice)
    else
      let r := extendStep b slice
      extendLoop fuel r.1 r.2

/-- `extend_from_slice(slice)` (circular): return unchanged when `cap == 0`,
else run the write loop; afterwards the source adds the (now empty) slice's
length and clamps `filled_data_length` at `cap`. -/
def extend_from_slice (b : WaterBufferC) (slice : List Nat) : WaterBufferC :=
  if b.cap = 0 then b
  else
    let r := extendLoop slice.length b slice
    let f := r.1.filled_data_length + r.2.length
    { r.1 with filled_data_length := if f ≥ r.1.cap then r.1.cap else f }

/-- `Index<RangeFull>` (circular): the full physical block when
`filled_data_length > cap`, else `filled_data_length` bytes from
`start_pos` — the read view `b[..]` / `as_slice`. -/
def asSlice (b : WaterBufferC) : List Nat :=
  if b.filled_data_length > b.cap then b.data.take b.cap
  else (b.data.drop b.start_pos).take b.filled_data_length

end WaterBufferC

/-- The index-reduction loop of `Index<usize>` in circular mode:
`while index > filled_data_length { index -= filled_data_length }`, modelled
with fuel; `none` means the loop has not finished within `fuel` iterations.
(When `filled_data_length = 0` and `index > 0` the subtraction makes no
progress, so the real loop never exits.) -/
def circReduce (fuel filled index : Nat) : Option Nat :=
  if index > filled then
    match fuel with
    | 0 => none
    | f + 1 => circReduce f filled (index - filled)
  else some index

/-- `Index<usize>::index` (circular): reduce the index with the loop above,
then read the raw allocation at the reduced offset (NOT offset by
`start_pos`); `none` also results when the reduced offset falls outside the
allocation, where the source dereferences out of bounds. -/
def WaterBufferC.indexUsize (b : WaterBufferC) (index fuel : Nat) : Option Nat :=
  (circReduce fuel b.filled_data_length index).bind (fun p => b.data.get? p)

/-- A write operation of the circular engine: `push(byte)` or
`extend_from_slice(slice)`. -/
inductive WriteOp where
  | push (b : Nat)
  | extend (s : List Nat)
deriving Repr, DecidableEq

/-- The bytes a write operation submits, in write order. -/
def WriteOp.bytes : WriteOp → List Nat
  | .push b => [b]
  | .extend s => s

/-- Apply one write operation to a circular buffer. -/
def WaterBufferC.applyOp (b : WaterBufferC) : WriteOp → WaterBufferC
  | .push x => b.push x
  | .extend s => b.extend_from_slice s

/-- Run a sequence of write operations on a fresh circular buffer of capacity
`cap` whose allocation initially holds `init`. -/
def runC (cap : Nat) (init : List Nat) (ops : List WriteOp) : WaterBufferC :=
  ops.foldl WaterBufferC.applyOp (WaterBufferC.with_capacity cap init)

/-- All bytes written by a sequence of operations, in write order. -/
def historyOf (ops : List WriteOp) : List Nat :=
  (ops.map WriteOp.bytes).flatten

/-- Reference write pattern: store byte number `j` of a stream at physical
offset `j % cap`.  The circular-engine invariant below states that the
allocation always equals `writeWrap cap init 0 history`. -/
def writeWrap (cap : Nat) : List Nat → Nat → List Nat → List Nat
  | d, _, [] => d
  | d, j, b :: rest => writeWrap cap (d.set (j % cap) b) (j + 1) rest

/-- State invariant of the circular engine, relating a buffer reached from a
fresh capacity-`cap` buffer (initial contents `init`) to the history `h` of
all bytes written so far. -/
def CInv (cap : Nat) (init : List Nat) (h : List Nat) (b : WaterBufferC) : Prop :=
  b.cap = cap ∧ b.start_pos = 0 ∧
  b.data = writeWrap cap init 0 h ∧
  b.filled_data_length = min h.length cap ∧
  b.circular_position = if cap < h.length then some (h.length % cap) else none

/-! ## Theorems about the linear engine -/

/-- C9: `advance_mut(n)` (also exposed as `IoBufMut::set_init`) never fails and
performs no bounds check: for every buffer state and every `n` it increments
`filled_data_length` by exactly `n` and changes no other field, even when `n`
exceeds the size of the outstanding spare-capacity view. -/
theorem C9_advance_mut_unchecked (b : WaterBufferL) (n : Nat) :
    (b.advance_mut n).filled_data_length = b.filled_data_length + n ∧
    (b.advance_mut n).cap = b.cap ∧
    (b.advance_mut n).start_pos = b.start_pos ∧
    (b.advance_mut n).data = b.data ∧
    b.set_init n = b.advance_mut n :=
  ⟨rfl, rfl, rfl, rfl, rfl⟩

/-- C3: `advance(n)` fails (panics) exactly when `n > len()`; on success it
increments `start_pos` by `n`, decrements the length by `n`, and the read view
equals the previous read view with its first `n` bytes removed. -/
theorem C3_advance_spec (b : WaterBufferL) (n : Nat) :
    (b.advance n = none ↔ b.len < n) ∧
    (n ≤ b.len →
      b.advance n = some (b.advanced n) ∧
      (b.advanced n).start_pos = b.start_pos + n ∧
      (b.advanced n).len = b.len - n ∧
      (b.advanced n).asSlice = b.asSlice.drop n) := by
  constructor
  · simp only [WaterBufferL.advance, WaterBufferL.len]
    split
    · simpa using ‹_›
    · simp; omega
  · intro h
    refine ⟨?_, rfl, rfl, ?_⟩
    · simp only [WaterBufferL.advance, WaterBufferL.len] at *
      split
      · omega
      · rfl
    · simp only [WaterBufferL.advanced, WaterBufferL.asSlice, List.drop_take,
        List.drop_drop]

/-- Closed instance of `C3_advance_spec` at a concrete buffer. -/
theorem C3_advance_spec_witness :
    (2 : Nat) ≤ (⟨10, 1, 5, [9,0,1,2,3,4,9,9,9,9]⟩ : WaterBufferL).len ∧
    ((⟨10, 1, 5, [9,0,1,2,3,4,9,9,9,9]⟩ : WaterBufferL).advance 2
      = some ((⟨10, 1, 5, [9,0,1,2,3,4,9,9,9,9]⟩ : WaterBufferL).advanced 2)) ∧
    ((⟨10, 1, 5, [9,0,1,2,3,4,9,9,9,9]⟩ : WaterBufferL).advanced 2).asSlice
      = ((⟨10, 1, 5, [9,0,1,2,3,4,9,9,9,9]⟩ : WaterBufferL).asSlice).drop 2 := by
  refine ⟨by decide, ?_, ?_⟩
  · exact ((C3_advance_spec ⟨10, 1, 5, [9,0,1,2,3,4,9,9,9,9]⟩ 2).2 (by decide)).1
  · exact ((C3_advance_spec ⟨10, 1, 5, [9,0,1,2,3,4,9,9,9,9]⟩ 2).2 (by decide)).2.2.2

/-- C2 (code bug): from a fresh linear buffer of capacity 10, extending by 8
bytes, advancing 5 and extending by 4 more bytes leaves
`start_pos + filled_data_length = 12 > cap = 10`: `reserve`'s early return
compares against `remaining_mut = cap - filled`, ignoring `start_pos`, so
`extend_from_slice` writes 2 bytes past the allocation and breaks the linear
invariant `start_pos + length ≤ capacity`. -/
theorem C2_invariant_violation :
    (((WaterBufferL.with_capacity 10 (List.replicate 10 0)).extend_from_slice
        [65,66,67,68,69,70,71,72]).advance 5).map
      (fun b =>
        let b2 := b.extend_from_slice [87,88,89,90]
        (b2.start_pos, b2.filled_data_length, b2.cap,
         decide (b2.start_pos + b2.filled_data_length ≤ b2.cap)))
      = some (5, 7, 10, false) := by decide

/-- C4 (code bug): on a linear buffer holding "12345678", the shared range
view `b[2..5]` is built with slice LENGTH `start_pos + end = 5`, yielding the
5-byte slice "34567" instead of the 3-byte "345" the claim (and the repo's own
`test_range_indexing`) demands; and the mutable range view `b[2..9]` with
`end = 9 > length = 8` does not fail at all (only `start > end` is checked). -/
theorem C4_range_bugs :
    ((((WaterBufferL.with_capacity 8 (List.replicate 8 0)).extend_from_slice
        [49,50,51,52,53,54,55,56]).indexRange 2 5).map List.length = some 5 ∧
     ((WaterBufferL.with_capacity 8 (List.replicate 8 0)).extend_from_slice
        [49,50,51,52,53,54,55,56]).indexRange 2 5 = some [51,52,53,54,55]) ∧
    ((((WaterBufferL.with_capacity 8 (List.replicate 8 0)).extend_from_slice
        [49,50,51,52,53,54,55,56]).indexMutRange 2 9).isSome = true) := by decide

/-- C6 counterexample: after `extend_from_slice` of two bytes and `advance(2)`
(which empties the buffer), `start_pos` is 2, not 0: `advance` never resets
the cursors. -/
theorem C6_counterexample :
    ((((WaterBufferL.with_capacity 10 (List.replicate 10 0)).extend_from_slice
        [65,66]).advance 2).map
      (fun b => (b.filled_data_length, b.start_pos)) = some (0, 2)) ∧
    some ((0 : Nat), (2 : Nat)) ≠ some (0, 0) := by decide

/-- C6 amended: `advance(n)` with `n = len()` succeeds, empties the buffer and
leaves `start_pos = old start_pos + n`; the cursor reset to 0 is performed not
by `advance` but by the next `reserve` (hence the next `extend_from_slice`),
whose empty-buffer `clear()` guarantees the write starts at offset 0. -/
theorem C6_amended_advance_to_empty (b : WaterBufferL) (n : Nat)
    (h : n = b.filled_data_length) :
    b.advance n = some (b.advanced n) ∧
    (b.advanced n).filled_data_length = 0 ∧
    (b.advanced n).start_pos = b.start_pos + n ∧
    ∀ k, ((b.advanced n).reserve k).start_pos = 0 := by
  subst h
  refine ⟨?_, by simp [WaterBufferL.advanced], rfl, ?_⟩
  · simp [WaterBufferL.advance, WaterBufferL.advanced]
  · intro k
    simp only [WaterBufferL.reserve, WaterBufferL.advanced, WaterBufferL.clear,
      WaterBufferL.reset, Nat.sub_self, WaterBufferL.un_initialized_remaining,
      WaterBufferL.available, WaterBufferL.shift_data, WaterBufferL.expand]
    repeat' split
    all_goals first | rfl | simp_all

/-- Closed instance of `C6_amended_advance_to_empty` at a concrete buffer. -/
theorem C6_amended_advance_to_empty_witness :
    (2 : Nat) = (⟨10, 0, 2, List.replicate 10 0⟩ : WaterBufferL).filled_data_length ∧
    ((⟨10, 0, 2, List.replicate 10 0⟩ : WaterBufferL).advanced 2).start_pos = 0 + 2 ∧
    (((⟨10, 0, 2, List.replicate 10 0⟩ : WaterBufferL).advanced 2).reserve 5).start_pos = 0 :=
  ⟨rfl,
   (C6_amended_advance_to_empty ⟨10, 0, 2, List.replicate 10 0⟩ 2 rfl).2.2.1,
   (C6_amended_advance_to_empty ⟨10, 0, 2, List.replicate 10 0⟩ 2 rfl).2.2.2 5⟩

/-- `listCopy` preserves the allocation length. -/
theorem listCopy_length (s : List Nat) (d : List Nat) (pos : Nat) :
    (listCopy d pos s).length = d.length := by
  induction s generalizing d pos with
  | nil => rfl
  | cons b rest ih => simpa [listCopy] using ih (d.set pos b) (pos + 1)

/-- An in-bounds `listCopy` splices the copied bytes over the old contents. -/
theorem listCopy_eq (s : List Nat) (d : List Nat) (pos : Nat)
    (h : pos + s.length ≤ d.length) :
    listCopy d pos s = d.take pos ++ s ++ d.drop (pos + s.length) := by
  induction s generalizing d pos with
  | nil => simp [listCopy]
  | cons b rest ih =>
    have hpos : pos < d.length := by simp only [List.length_cons] at h; omega
    have hlen : (d.take pos).length = pos := by
      simp [List.length_take, Nat.min_eq_left hpos.le]
    rw [listCopy, ih (d.set pos b) (pos + 1)
      (by simp only [List.length_set, List.length_cons] at h ⊢; omega)]
    rw [List.set_eq_take_append_cons_drop, if_pos hpos,
      List.take_append_eq_append_take, List.drop_append_eq_append_drop,
      List.take_of_length_le (by omega : (d.take pos).length ≤ pos + 1),
      List.drop_eq_nil_of_le
        (by omega : (d.take pos).length ≤ pos + 1 + rest.length),
      hlen]
    have e1 : pos + 1 - pos = 1 := by omega
    have e2 : pos + 1 + rest.length - pos = rest.length + 1 := by omega
    rw [e1, e2, List.drop_succ_cons, List.drop_drop]
    simp only [List.take_succ_cons, List.take_zero, List.nil_append,
      List.cons_append, List.append_assoc, List.length_cons]
    have e3 : pos + 1 + rest.length = pos + (rest.length + 1) := by omega
    rw [e3]

/-- `shift_data` does not change the read view (on states whose live window
lies inside the allocation). -/
theorem asSlice_shift_data (b : WaterBufferL)
    (hinv : b.start_pos + b.filled_data_length ≤ b.data.length) :
    b.shift_data.asSlice = b.asSlice := by
  have hw : ((b.data.drop b.start_pos).take b.filled_data_length).length
      = b.filled_data_length := by
    simp [List.length_take, List.length_drop]; omega
  have hfd : b.filled_data_length ≤ b.data.length := by omega
  simp only [WaterBufferL.shift_data, WaterBufferL.asSlice, List.drop_zero]
  rw [listCopy_eq _ _ _ (by rw [Nat.zero_add, hw]; omega)]
  simp only [List.take_zero, List.nil_append, Nat.zero_add]
  rw [List.take_append_of_le_length (le_of_eq hw.symm)]
  exact List.take_of_length_le (le_of_eq hw)

/-- `expand` does not change the read view (on states whose live window lies
inside the allocation). -/
theorem asSlice_expand (b : WaterBufferL) (n : Nat)
    (hinv : b.start_pos + b.filled_data_length ≤ b.data.length) :
    (b.expand n).asSlice = b.asSlice := by
  simp only [WaterBufferL.expand, WaterBufferL.asSlice]
  rw [List.drop_append_of_le_length (by omega),
    List.take_append_of_le_length (by simp [List.length_drop]; omega)]

/-- C8: on any linear state satisfying the mode invariant, `reserve(len)`
(the growth path every write takes, built on `ap_size`/`expand`) never
decreases the capacity, ends with capacity at least the current length plus
the requested additional amount, and leaves the read view unchanged — growth
preserves all valid bytes at their logical offsets. -/
theorem C8_growth_spec (b : WaterBufferL) (len : Nat)
    (hinv : b.start_pos + b.filled_data_length ≤ b.cap)
    (hlen : b.data.length = b.cap) :
    b.cap ≤ (b.reserve len).cap ∧
    b.filled_data_length + len ≤ (b.reserve len).cap ∧
    (b.reserve len).asSlice = b.asSlice := by
  unfold WaterBufferL.reserve
  by_cases hf : b.filled_data_length = 0
  · simp only [hf, if_true, reduceIte]
    have hslice : b.asSlice = [] := by
      simp [WaterBufferL.asSlice, hf]
    have hcslice : b.clear.asSlice = [] := by
      simp [WaterBufferL.clear, WaterBufferL.reset, WaterBufferL.asSlice]
    simp only [WaterBufferL.clear, WaterBufferL.reset,
      WaterBufferL.un_initialized_remaining, WaterBufferL.available,
      WaterBufferL.ap_size, WaterBufferL.expand, WaterBufferL.shift_data,
      WaterBufferL.asSlice, Nat.sub_zero, Nat.zero_add, hf, hslice]
    repeat' split
    all_goals simp_all [List.take_zero]
    all_goals omega
  · simp only [hf, if_false, reduceIte]
    have hfc : b.filled_data_length ≤ b.cap := by omega
    have hap : b.filled_data_length + len ≤ b.cap + b.ap_size len := by
      unfold WaterBufferL.ap_size
      split
      · omega
      · dsimp only
        split <;> omega
    simp only [WaterBufferL.un_initialized_remaining, WaterBufferL.available]
    split
    · exact ⟨Nat.le_refl _, by omega, rfl⟩
    · split
      · split
        · exact ⟨Nat.le_refl _,
            (by omega : b.filled_data_length + len ≤ b.cap),
            asSlice_shift_data b (by omega)⟩
        · exact ⟨Nat.le_add_right _ _, hap, asSlice_expand b _ (by omega)⟩
      · exact ⟨Nat.le_refl _, by omega, rfl⟩

/-- Closed instance of `C8_growth_spec`: a capacity-4 buffer holding 4 bytes,
asked to reserve 3 more. -/
theorem C8_growth_spec_witness :
    ((⟨4, 0, 4, [65,66,67,68]⟩ : WaterBufferL).start_pos
        + (⟨4, 0, 4, [65,66,67,68]⟩ : WaterBufferL).filled_data_length
        ≤ (⟨4, 0, 4, [65,66,67,68]⟩ : WaterBufferL).cap) ∧
    4 ≤ ((⟨4, 0, 4, [65,66,67,68]⟩ : WaterBufferL).reserve 3).cap ∧
    4 + 3 ≤ ((⟨4, 0, 4, [65,66,67,68]⟩ : WaterBufferL).reserve 3).cap ∧
    ((⟨4, 0, 4, [65,66,67,68]⟩ : WaterBufferL).reserve 3).asSlice
      = (⟨4, 0, 4, [65,66,67,68]⟩ : WaterBufferL).asSlice :=
  ⟨by decide,
   (C8_growth_spec ⟨4, 0, 4, [65,66,67,68]⟩ 3 (by decide) (by decide)).1,
   (C8_growth_spec ⟨4, 0, 4, [65,66,67,68]⟩ 3 (by decide) (by decide)).2.1,
   (C8_growth_spec ⟨4, 0, 4, [65,66,67,68]⟩ 3 (by decide) (by decide)).2.2⟩

/-- C7 counterexample: in circular mode, `extend_from_slice` on a
zero-capacity buffer returns immediately (`if self.cap == 0 {return;}`) and
discards the byte instead of allocating: the content stays empty, not "A". -/
theorem C7_counterexample :
    (WaterBufferC.with_capacity 0 []).extend_from_slice [65]
      = WaterBufferC.with_capacity 0 [] ∧
    ((WaterBufferC.with_capacity 0 []).extend_from_slice [65]).asSlice ≠ [65] := by
  decide

/-- C7 amended: only the linear build allocates transparently on the first
write to a zero-capacity buffer — `push('A')` yields content "A" with
capacity ≥ 1, and `extend_from_slice` stores the given bytes; in circular
mode `extend_from_slice` on a zero-capacity buffer returns the buffer
unchanged, discarding the bytes. -/
theorem C7_amended_zero_capacity (s : List Nat) :
    ((WaterBufferL.with_capacity 0 []).push 65).asSlice = [65] ∧
    1 ≤ ((WaterBufferL.with_capacity 0 []).push 65).cap ∧
    ((WaterBufferL.with_capacity 0 []).extend_from_slice s).asSlice = s ∧
    (WaterBufferC.with_capacity 0 []).extend_from_slice s
      = WaterBufferC.with_capacity 0 [] := by
  refine ⟨by decide, by decide, ?_, by simp [WaterBufferC.extend_from_slice,
    WaterBufferC.with_capacity]⟩
  cases s with
  | nil => decide
  | cons x xs =>
    simp only [WaterBufferL.extend_from_slice, WaterBufferL.reserve,
      WaterBufferL.with_capacity, WaterBufferL.clear, WaterBufferL.reset,
      WaterBufferL.un_initialized_remaining, WaterBufferL.available,
      WaterBufferL.ap_size, WaterBufferL.expand, WaterBufferL.shift_data,
      WaterBufferL.asSlice]
    have hlen0 : ¬ ((x :: xs).length < 0 - 0) := by omega
    have hraw : 0 - (0 + 0) < (x :: xs).length := by simp
    have havail : ¬ (0 ≥ 0 ∧ 0 - 0 ≥ (x :: xs).length) := by simp
    simp only [hlen0, hraw, havail, if_false, if_true, reduceIte]
    set A := if (x :: xs).length < 64 then 64 else (x :: xs).length with hA
    have hAge : (x :: xs).length ≤ A := by
      rw [hA]; split <;> omega
    have hrep : (List.replicate A 0).length = A := by simp
    rw [List.nil_append]
    rw [listCopy_eq _ _ _
      (by simp only [List.length_replicate]; omega)]
    simp only [Nat.zero_add, List.take_zero, List.nil_append, List.drop_zero]
    rw [List.take_append_of_le_length (Nat.le_refl _)]
    exact List.take_length ..

/-- C5 (code bug): on a full circular buffer of capacity 5 holding "ABCDE"
(logical length 5), single-index access at index 5 should, per the claim,
return the window element at `5 mod 5 = 0` (i.e. 'A' = 65); instead the
reduction loop (`while index > filled`) leaves the index at 5 and the source
dereferences raw offset 5 — one element past the allocation (`none` here,
undefined behaviour in the source). -/
theorem C5_index_not_modulo :
    (((WaterBufferC.with_capacity 5 (List.replicate 5 0)).extend_from_slice
        [65,66,67,68,69]).asSlice = [65,66,67,68,69] ∧
     ((WaterBufferC.with_capacity 5 (List.replicate 5 0)).extend_from_slice
        [65,66,67,68,69]).len = 5) ∧
    circReduce 8 5 5 = some 5 ∧
    ((WaterBufferC.with_capacity 5 (List.replicate 5 0)).extend_from_slice
        [65,66,67,68,69]).indexUsize 5 8 = none := by
  decide

/-- C10 (code bug): the index-reduction loop of circular `Index<usize>` never
terminates on an empty buffer with a positive index — `index -= 0` makes no
progress, so no amount of fuel makes `circReduce` finish. -/
theorem C10_reduce_diverges : ∀ fuel, circReduce fuel 0 1 = none := by
  intro fuel
  induction fuel with
  | zero => rfl
  | succ f ih => simpa [circReduce] using ih

/-- `writeWrap` preserves the allocation length. -/
theorem writeWrap_length (cap : Nat) (s : List Nat) :
    ∀ (d : List Nat) (j : Nat), (writeWrap cap d j s).length = d.length := by
  induction s with
  | nil => intro d j; rfl
  | cons b rest ih =>
    intro d j
    simpa [writeWrap] using ih (d.set (j % cap) b) (j + 1)

/-- `writeWrap` over a concatenated stream splits into two passes. -/
theorem writeWrap_append (cap : Nat) (h : List Nat) (s : List Nat) :
    ∀ (d : List Nat) (j : Nat),
      writeWrap cap d j (h ++ s)
        = writeWrap cap (writeWrap cap d j h) (j + h.length) s := by
  induction h with
  | nil => intro d j; simp [writeWrap]
  | cons b rest ih =>
    intro d j
    simp only [List.cons_append, writeWrap, List.length_cons, List.append_eq]
    rw [ih (d.set (j % cap) b) (j + 1)]
    congr 1
    omega

/-- Two stream positions less than one lap apart land on distinct offsets. -/
theorem add_mod_ne (cap j k : Nat) (hcap : 0 < cap) (h1 : 0 < k)
    (h2 : k < cap) : (j + k) % cap ≠ j % cap := by
  have hr : j % cap < cap := Nat.mod_lt _ hcap
  have h3 : (j + k) % cap = (j % cap + k) % cap := by
    conv_lhs => rw [Nat.add_mod, Nat.mod_eq_of_lt h2]
  rcases Nat.lt_or_ge (j % cap + k) cap with h | h
  · rw [h3, Nat.mod_eq_of_lt h]; omega
  · rw [h3, Nat.mod_eq_sub_mod h, Nat.mod_eq_of_lt (by omega)]
    omega

/-- How the circular engine's cursor arithmetic (`if p ≥ cap { 0 } else p`)
relates to the stream position modulo the capacity, for an in-lap step. -/
theorem wrap_cursor_eq (cap t a : Nat)
    (hle : t % cap + a ≤ cap) :
    (t + a) % cap = if t % cap + a ≥ cap then 0 else t % cap + a := by
  have hq : cap * (t / cap) + t % cap = t := Nat.div_add_mod t cap
  split
  · have e2 : t + a = (t / cap + 1) * cap := by
      have : (t / cap + 1) * cap = cap * (t / cap) + cap := by ring
      omega
    rw [e2, Nat.mul_mod_left]
  · have hlt : t % cap + a < cap := by omega
    have e2 : t + a = t % cap + a + cap * (t / cap) := by omega
    rw [e2, Nat.add_mul_mod_self_left, Nat.mod_eq_of_lt hlt]

/-- The stream position whose offset is `i`: adding the lap-relative distance
from `j` to `i` brings `j` onto offset `i`. -/
theorem add_offset_mod (cap i j : Nat) (hcap : 0 < cap) (hi : i < cap) :
    (j + (i + cap - j % cap) % cap) % cap = i := by
  have hr : j % cap < cap := Nat.mod_lt _ hcap
  have hq : cap * (j / cap) + j % cap = j := Nat.div_add_mod j cap
  set r := j % cap with hrdef
  set q := j / cap with hqdef
  rcases Nat.lt_or_ge (i + cap - r) cap with h | h
  · rw [Nat.mod_eq_of_lt h]
    have e : j + (i + cap - r) = i + cap * (q + 1) := by
      have hmul : cap * (q + 1) = cap * q + cap := by ring
      omega
    rw [e, Nat.add_mul_mod_self_left, Nat.mod_eq_of_lt hi]
  · rw [Nat.mod_eq_sub_mod h,
      Nat.mod_eq_of_lt (show i + cap - r - cap < cap by omega)]
    have e : j + (i + cap - r - cap) = i + cap * q := by omega
    rw [e, Nat.add_mul_mod_self_left, Nat.mod_eq_of_lt hi]

/-- Offset characterization of `writeWrap` for a stream at most one lap long:
the offset `k` positions after `j` holds byte `k` of the stream when the
stream reaches it, and is untouched otherwise. -/
theorem writeWrap_get (cap : Nat) (hcap : 0 < cap) (s : List Nat) :
    ∀ (d : List Nat) (j : Nat), d.length = cap → s.length ≤ cap →
      ∀ k, k < cap →
        (writeWrap cap d j s)[(j + k) % cap]?
          = if k < s.length then s[k]? else d[(j + k) % cap]? := by
  induction s with
  | nil =>
    intro d j hd hs k hk
    simp [writeWrap]
  | cons b rest ih =>
    intro d j hd hs k hk
    simp only [writeWrap, List.length_cons]
    have hd' : (d.set (j % cap) b).length = cap := by simp [hd]
    have hs' : rest.length ≤ cap := by
      simp only [List.length_cons] at hs; omega
    have hrest : rest.length + 1 ≤ cap := by
      simpa using hs
    cases k with
    | zero =>
      have hpos : (j + 1 + (cap - 1)) % cap = (j + 0) % cap := by
        have e : j + 1 + (cap - 1) = j + cap := by omega
        rw [e, Nat.add_mod_right, Nat.add_zero]
      have step := ih (d.set (j % cap) b) (j + 1) hd' hs'
        (cap - 1) (show cap - 1 < cap by omega)
      rw [hpos] at step
      rw [step, if_neg (show ¬ (cap - 1 < rest.length) by omega),
        if_pos (show 0 < rest.length + 1 by omega)]
      simp only [Nat.add_zero]
      rw [List.getElem?_set_self (show j % cap < d.length by
        rw [hd]; exact Nat.mod_lt _ hcap)]
      simp
    | succ k' =>
      have hpos : (j + 1 + k') % cap = (j + (k' + 1)) % cap := by
        congr 1
        omega
      have step := ih (d.set (j % cap) b) (j + 1) hd' hs' k' (by omega)
      rw [hpos] at step
      rw [step]
      by_cases hc : k' < rest.length
      · rw [if_pos hc, if_pos (show k' + 1 < rest.length + 1 by omega)]
        simp
      · rw [if_neg hc,
          if_neg (show ¬ (k' + 1 < rest.length + 1) by omega)]
        exact List.getElem?_set_ne
          (Ne.symm (add_mod_ne cap j (k' + 1) hcap (Nat.succ_pos _) hk))

/-- A contiguous chunk that fits before the wrap point: the raw `memcpy` the
loop performs (`listCopy` at offset `j % cap`) writes exactly what the
reference pattern `writeWrap` prescribes for stream position `j`. -/
theorem listCopy_eq_writeWrap (cap : Nat) (chunk : List Nat) :
    ∀ (d : List Nat) (j : Nat), j % cap + chunk.length ≤ cap →
      listCopy d (j % cap) chunk = writeWrap cap d j chunk := by
  induction chunk with
  | nil => intro d j hle; rfl
  | cons c rest ih =>
    intro d j hle
    simp only [listCopy, writeWrap]
    cases rest with
    | nil => rfl
    | cons c2 r2 =>
      have hlt : j % cap + 1 < cap := by
        simp only [List.length_cons] at hle; omega
      have e : (j + 1) % cap = j % cap + 1 := by
        rw [Nat.add_mod, Nat.mod_eq_of_lt (show 1 < cap by omega),
          Nat.mod_eq_of_lt hlt]
      rw [show j % cap + 1 = (j + 1) % cap from e.symm]
      exact ih (d.set (j % cap) c) (j + 1)
        (by rw [e]; simp only [List.length_cons] at hle ⊢; omega)

/-- Writing exactly one full lap of bytes starting at stream position `j`
replaces the allocation with the lap rotated by `cap - j % cap`. -/
theorem writeWrap_full_rotate (cap : Nat) (hcap : 0 < cap) (d s : List Nat)
    (j : Nat) (hd : d.length = cap) (hs : s.length = cap) :
    writeWrap cap d j s = s.rotate (cap - j % cap) := by
  have hr : j % cap < cap := Nat.mod_lt _ hcap
  apply List.ext_getElem?
  intro i
  by_cases hi : i < cap
  · have hk : (i + cap - j % cap) % cap < cap := Nat.mod_lt _ hcap
    have h1 := writeWrap_get cap hcap s d j hd (le_of_eq hs)
      ((i + cap - j % cap) % cap) hk
    rw [add_offset_mod cap i j hcap hi] at h1
    rw [h1, if_pos (by omega)]
    rw [List.getElem?_rotate (by omega)]
    rw [hs]
    have e : i + (cap - j % cap) = i + cap - j % cap := by omega
    rw [e]
  · rw [List.getElem?_eq_none (by rw [writeWrap_length, hd]; omega),
      List.getElem?_eq_none (by rw [List.length_rotate, hs]; omega)]

/-- Circular `push` maintains the engine invariant, extending the history by
one byte. -/
theorem push_inv (cap : Nat) (init : List Nat) (h : List Nat) (x : Nat)
    (b : WaterBufferC) (hcap : 0 < cap) (hinv : CInv cap init h b) :
    CInv cap init (h ++ [x]) (b.push x) := by
  obtain ⟨hc, hsp, hdata, hfill, hcirc⟩ := hinv
  have hmodlt : h.length % cap < cap := Nat.mod_lt _ hcap
  have hwapp : writeWrap cap init 0 (h ++ [x])
      = (writeWrap cap init 0 h).set (h.length % cap) x := by
    rw [writeWrap_append]
    simp [writeWrap]
  have hlapp : (h ++ [x]).length = h.length + 1 := by simp
  unfold WaterBufferC.push
  rcases Nat.lt_or_ge h.length cap with hlt | hge
  · have hfill' : b.filled_data_length = h.length := by rw [hfill]; omega
    rw [if_neg (show ¬ (b.filled_data_length ≥ b.cap) by
      rw [hfill', hc]; omega)]
    refine ⟨hc, hsp, ?_, ?_, ?_⟩
    · show b.data.set b.filled_data_length x = _
      rw [hdata, hfill', hwapp, Nat.mod_eq_of_lt hlt]
    · show b.filled_data_length + 1 = _
      rw [hfill', hlapp]
      omega
    · show b.circular_position = _
      rw [hcirc, if_neg (show ¬ (cap < h.length) by omega), hlapp,
        if_neg (show ¬ (cap < h.length + 1) by omega)]
  · have hfill' : b.filled_data_length = cap := by rw [hfill]; omega
    have hp : b.circular_position.getD 0 = h.length % cap := by
      rcases Nat.lt_or_ge cap h.length with hgt | hle2
      · rw [hcirc, if_pos hgt]; rfl
      · have heq : h.length = cap := by omega
        rw [hcirc, if_neg (by omega), heq, Nat.mod_self]; rfl
    rw [if_pos (show b.filled_data_length ≥ b.cap by rw [hfill', hc])]
    refine ⟨hc, hsp, ?_, ?_, ?_⟩
    · show b.data.set (b.circular_position.getD 0) x = _
      rw [hdata, hp, hwapp]
    · show b.filled_data_length = _
      rw [hfill', hlapp]
      omega
    · show some (if b.circular_position.getD 0 + 1 ≥ b.cap then 0
          else b.circular_position.getD 0 + 1) = _
      rw [hp, hc, hlapp, if_pos (show cap < h.length + 1 by omega)]
      rw [wrap_cursor_eq cap h.length 1 (by omega)]

/-- One iteration of the circular `extend_from_slice` loop maintains the
engine invariant: it writes the next contiguous chunk (of length
`min (cap - pos) (remaining)`, at least 1 byte) and leaves exactly the rest
of the slice to write. -/
theorem extendStep_inv (cap : Nat) (init h slice : List Nat)
    (b : WaterBufferC) (hcap : 0 < cap) (hinv : CInv cap init h b)
    (hne : slice ≠ []) :
    1 ≤ min (cap - h.length % cap) slice.length ∧
    (WaterBufferC.extendStep b slice).2
      = slice.drop (min (cap - h.length % cap) slice.length) ∧
    CInv cap init (h ++ slice.take (min (cap - h.length % cap) slice.length))
      (WaterBufferC.extendStep b slice).1 := by
  obtain ⟨bc, bsp, bcirc, bfill, bdata⟩ := b
  obtain ⟨hc, hsp, hdata, hfill, hcirc⟩ := hinv
  simp only at hc hsp hdata hfill hcirc
  rw [hc, hsp, hdata, hfill, hcirc]
  have hmodlt : h.length % cap < cap := Nat.mod_lt _ hcap
  have hslen : 1 ≤ slice.length := by
    cases slice
    · simp at hne
    · simp
  rcases Nat.lt_trichotomy h.length cap with hlt | heq | hgt
  · have hmod : h.length % cap = h.length := Nat.mod_eq_of_lt hlt
    rw [if_neg (show ¬ (cap < h.length) by omega)]
    simp only [WaterBufferC.extendStep, hmod, Nat.min_eq_left hlt.le,
      Nat.add_zero]
    rw [if_neg (show ¬ (h.length ≥ cap) by omega),
      if_neg (show ¬ ((h.length,
        ({ cap := cap, start_pos := 0, circular_position := none,
           filled_data_length := h.length,
           data := writeWrap cap init 0 h } : WaterBufferC)).1 ≥ (h.length,
        ({ cap := cap, start_pos := 0, circular_position := none,
           filled_data_length := h.length,
           data := writeWrap cap init 0 h } : WaterBufferC)).2.cap) by
        dsimp only; omega)]
    dsimp only
    rw [if_pos hlt]
    have ha1 : (cap - h.length) ⊓ slice.length ≤ cap - h.length :=
      Nat.min_le_left _ _
    have ha2 : (cap - h.length) ⊓ slice.length ≤ slice.length :=
      Nat.min_le_right _ _
    have htk : (List.take ((cap - h.length) ⊓ slice.length) slice).length
        = (cap - h.length) ⊓ slice.length := by
      rw [List.length_take, Nat.min_eq_left ha2]
    refine ⟨by omega, rfl, rfl, rfl, ?_, ?_, ?_⟩
    · rw [writeWrap_append, Nat.zero_add,
        ← listCopy_eq_writeWrap cap _ _ h.length (by rw [hmod, htk]; omega),
        hmod]
    · dsimp only
      rw [List.length_append, htk]
      omega
    · rw [List.length_append, htk,
        if_neg (show ¬ (cap < h.length + (cap - h.length) ⊓ slice.length) by
          omega)]
  · have hmod0 : h.length % cap = 0 := by rw [heq, Nat.mod_self]
    rw [if_neg (show ¬ (cap < h.length) by omega)]
    simp only [WaterBufferC.extendStep, hmod0, Nat.sub_zero]
    rw [if_pos (show h.length ⊓ cap + 0 ≥ cap by omega)]
    dsimp only
    simp only [ite_self, Nat.sub_zero, Nat.zero_add]
    rw [if_neg (show ¬ (h.length ⊓ cap < cap) by omega)]
    have ha2 : cap ⊓ slice.length ≤ slice.length := Nat.min_le_right _ _
    have htk2 : (List.take (cap ⊓ slice.length) slice).length
        = cap ⊓ slice.length := by
      rw [List.length_take, Nat.min_eq_left ha2]
    refine ⟨by omega, trivial, rfl, rfl, ?_, ?_, ?_⟩
    · rw [writeWrap_append, Nat.zero_add,
        ← listCopy_eq_writeWrap cap _ _ h.length (by rw [hmod0, htk2]; omega),
        hmod0]
    · try dsimp only
      rw [List.length_append, htk2]
      omega
    · rw [List.length_append, htk2,
        if_pos (show cap < h.length + cap ⊓ slice.length by omega),
        wrap_cursor_eq cap h.length (cap ⊓ slice.length) (by rw [hmod0]; omega),
        hmod0]
      simp only [Nat.zero_add]
  · have hfillc : h.length ⊓ cap = cap := by omega
    rw [if_pos hgt]
    simp only [WaterBufferC.extendStep]
    rw [if_neg (show ¬ (h.length % cap ≥ cap) by omega),
      if_neg (show ¬ (h.length ⊓ cap < cap) by omega)]
    have ha2 : (cap - h.length % cap) ⊓ slice.length ≤ slice.length :=
      Nat.min_le_right _ _
    have ha1 : (cap - h.length % cap) ⊓ slice.length ≤ cap - h.length % cap :=
      Nat.min_le_left _ _
    have htk3 : (List.take ((cap - h.length % cap) ⊓ slice.length) slice).length
        = (cap - h.length % cap) ⊓ slice.length := by
      rw [List.length_take, Nat.min_eq_left ha2]
    refine ⟨by omega, rfl, rfl, rfl, ?_, ?_, ?_⟩
    · rw [writeWrap_append, Nat.zero_add,
        ← listCopy_eq_writeWrap cap _ _ h.length (by rw [htk3]; omega)]
    · try dsimp only
      rw [List.length_append, htk3]
      omega
    · rw [List.length_append, htk3,
        if_pos (show cap < h.length + (cap - h.length % cap) ⊓ slice.length by
          omega),
        wrap_cursor_eq cap h.length ((cap - h.length % cap) ⊓ slice.length)
          (by omega)]

/-- The circular write loop, run with fuel at least the slice length (as
`extend_from_slice` does), consumes the whole slice and maintains the engine
invariant. -/
theorem extendLoop_inv (cap : Nat) (init : List Nat) (hcap : 0 < cap) :
    ∀ (fuel : Nat) (slice h : List Nat) (b : WaterBufferC),
      CInv cap init h b → slice.length ≤ fuel →
      (WaterBufferC.extendLoop fuel b slice).2 = [] ∧
      CInv cap init (h ++ slice) (WaterBufferC.extendLoop fuel b slice).1 := by
  intro fuel
  induction fuel with
  | zero =>
    intro slice h b hinv hle
    have hsl : slice = [] := List.length_eq_zero.mp (Nat.le_zero.mp hle)
    subst hsl
    exact ⟨rfl, by simpa using hinv⟩
  | succ f ih =>
    intro slice h b hinv hle
    by_cases hs : slice = []
    · subst hs
      simp only [WaterBufferC.extendLoop, List.isEmpty_nil, if_true]
      constructor
      · trivial
      · simpa using hinv
    · have hne : ¬ (slice.isEmpty = true) := by
        cases slice
        · simp at hs
        · simp
      simp only [WaterBufferC.extendLoop, if_neg hne]
      obtain ⟨h1, h2, h3⟩ := extendStep_inv cap init h slice b hcap hinv hs
      rw [h2]
      have hlen2 : (slice.drop
          (min (cap - h.length % cap) slice.length)).length ≤ f := by
        rw [List.length_drop]; omega
      obtain ⟨g1, g2⟩ := ih
        (slice.drop (min (cap - h.length % cap) slice.length))
        (h ++ slice.take (min (cap - h.length % cap) slice.length))
        (WaterBufferC.extendStep b slice).1 h3 hlen2
      refine ⟨g1, ?_⟩
      rwa [List.append_assoc, List.take_append_drop] at g2

/-- Circular `extend_from_slice` maintains the engine invariant (for nonzero
capacity), extending the history by the whole slice. -/
theorem extend_from_slice_inv (cap : Nat) (init h slice : List Nat)
    (b : WaterBufferC) (hcap : 0 < cap) (hinv : CInv cap init h b) :
    CInv cap init (h ++ slice) (b.extend_from_slice slice) := by
  have hc := hinv.1
  simp only [WaterBufferC.extend_from_slice]
  rw [hc, if_neg (show ¬ (cap = 0) by omega)]
  obtain ⟨g1, g2⟩ := extendLoop_inv cap init hcap slice.length slice h b hinv
    (Nat.le_refl _)
  obtain ⟨k1, k2, k3, k4, k5⟩ := g2
  refine ⟨k1, k2, k3, ?_, k5⟩
  show (if _ ≥ _ then _ else _) = _
  rw [g1, k4, k1]
  simp only [List.length_nil, Nat.add_zero]
  split <;> omega

/-- Any sequence of circular writes from a fresh buffer satisfies the engine
invariant with the full write history. -/
theorem runC_inv (cap : Nat) (init : List Nat) (ops : List WriteOp)
    (hcap : 0 < cap) :
    CInv cap init (historyOf ops) (runC cap init ops) := by
  have base : CInv cap init [] (WaterBufferC.with_capacity cap init) := by
    refine ⟨rfl, rfl, rfl, by simp [WaterBufferC.with_capacity], ?_⟩
    simp [WaterBufferC.with_capacity]
  suffices hgen : ∀ (l : List WriteOp) (b : WaterBufferC) (h : List Nat),
      CInv cap init h b →
      CInv cap init (h ++ historyOf l) (l.foldl WaterBufferC.applyOp b) by
    have hres := hgen ops (WaterBufferC.with_capacity cap init) [] base
    simpa [runC] using hres
  intro l
  induction l with
  | nil =>
    intro b h hinv
    simpa [historyOf] using hinv
  | cons op rest ih =>
    intro b h hinv
    simp only [List.foldl_cons, historyOf, List.map_cons, List.flatten_cons]
    have h1 : CInv cap init (h ++ op.bytes) (b.applyOp op) := by
      cases op with
      | push x => exact push_inv cap init h x b hcap hinv
      | extend s => exact extend_from_slice_inv cap init h s b hcap hinv
    have h2 := ih (b.applyOp op) (h ++ op.bytes) h1
    rw [List.append_assoc] at h2
    simpa [historyOf] using h2

/-- C1 counterexample: circular buffer of capacity 5; push 'A'..'E' (fills
exactly), then push 'F'.  The read view `b[..]` is "FBCDE" — the physical
array with the wrap cursor at offset 0 — not "BCDEF" (the last 5 bytes in
write order) as the claim states. -/
theorem C1_counterexample :
    (runC 5 (List.replicate 5 0)
      [WriteOp.push 65, WriteOp.push 66, WriteOp.push 67, WriteOp.push 68,
       WriteOp.push 69, WriteOp.push 70]).asSlice ≠ [66, 67, 68, 69, 70] ∧
    (runC 5 (List.replicate 5 0)
      [WriteOp.push 65, WriteOp.push 66, WriteOp.push 67, WriteOp.push 68,
       WriteOp.push 69, WriteOp.push 70]).asSlice = [70, 66, 67, 68, 69] := by
  decide

/-- C1 amended: in circular mode, for every sequence of `push` /
`extend_from_slice` calls on a fresh buffer whose total number of bytes
written exceeds the capacity, the full read view (`as_slice` / `b[..]`)
contains exactly the last `capacity` bytes written, but rotated: it equals
the last `capacity` bytes rotated left by `capacity - (total mod capacity)`
positions (so it is in write order exactly when `capacity` divides the
total), regardless of whether the overflow happened in one write or many. -/
theorem C1_amended_rotation (cap : Nat) (init : List Nat) (ops : List WriteOp)
    (hcap : 0 < cap) (hinit : init.length = cap)
    (hover : cap < (historyOf ops).length) :
    (runC cap init ops).asSlice
      = ((historyOf ops).drop ((historyOf ops).length - cap)).rotate
          (cap - (historyOf ops).length % cap) := by
  obtain ⟨hc, hsp, hdata, hfill, hcirc⟩ := runC_inv cap init ops hcap
  have hdlen : (runC cap init ops).data.length = cap := by
    rw [hdata, writeWrap_length, hinit]
  have hfc : (runC cap init ops).filled_data_length = cap := by
    rw [hfill]; omega
  unfold WaterBufferC.asSlice
  rw [if_neg (show ¬ ((runC cap init ops).filled_data_length
      > (runC cap init ops).cap) by rw [hfc, hc]; omega)]
  rw [hsp, List.drop_zero, hfc, List.take_of_length_le (le_of_eq hdlen), hdata]
  have hsplit : writeWrap cap init 0 (historyOf ops)
      = writeWrap cap
          (writeWrap cap init 0
            ((historyOf ops).take ((historyOf ops).length - cap)))
          (0 + ((historyOf ops).take ((historyOf ops).length - cap)).length)
          ((historyOf ops).drop ((historyOf ops).length - cap)) := by
    conv_lhs => rw [show historyOf ops
      = (historyOf ops).take ((historyOf ops).length - cap)
        ++ (historyOf ops).drop ((historyOf ops).length - cap) from
      (List.take_append_drop _ _).symm]
    rw [writeWrap_append]
  rw [hsplit]
  have hlt1 : ((historyOf ops).take ((historyOf ops).length - cap)).length
      = (historyOf ops).length - cap := by
    rw [List.length_take]; omega
  have hld : ((historyOf ops).drop ((historyOf ops).length - cap)).length
      = cap := by
    rw [List.length_drop]; omega
  rw [hlt1, Nat.zero_add,
    writeWrap_full_rotate cap hcap _ _ ((historyOf ops).length - cap)
      (by rw [writeWrap_length, hinit]) hld]
  congr 1
  have hmm : ((historyOf ops).length - cap) % cap
      = (historyOf ops).length % cap := by
    conv_rhs => rw [show (historyOf ops).length
      = ((historyOf ops).length - cap) + cap by omega]
    rw [Nat.add_mod_right]
  rw [hmm]

/-- Closed instance of `C1_amended_rotation` at the capacity-5 'A'..'F'
scenario: the view is the last five bytes "BCDEF" rotated by 4, i.e.
"FBCDE". -/
theorem C1_amended_rotation_witness :
    (0 < 5 ∧ (List.replicate 5 0).length = 5 ∧
      5 < (historyOf [WriteOp.push 65, WriteOp.push 66, WriteOp.push 67,
        WriteOp.push 68, WriteOp.push 69, WriteOp.push 70]).length) ∧
    (runC 5 (List.replicate 5 0)
      [WriteOp.push 65, WriteOp.push 66, WriteOp.push 67, WriteOp.push 68,
       WriteOp.push 69, WriteOp.push 70]).asSlice
      = ((historyOf [WriteOp.push 65, WriteOp.push 66, WriteOp.push 67,
            WriteOp.push 68, WriteOp.push 69, WriteOp.push 70]).drop
          ((historyOf [WriteOp.push 65, WriteOp.push 66, WriteOp.push 67,
            WriteOp.push 68, WriteOp.push 69, WriteOp.push 70]).length - 5)).rotate
          (5 - (historyOf [WriteOp.push 65, WriteOp.push 66, WriteOp.push 67,
            WriteOp.push 68, WriteOp.push 69, WriteOp.push 70]).length % 5) :=
  ⟨⟨by decide, by decide, by decide⟩,
   C1_amended_rotation 5 (List.replicate 5 0)
     [WriteOp.push 65, WriteOp.push 66, WriteOp.push 67, WriteOp.push 68,
      WriteOp.push 69, WriteOp.push 70] (by decide) (by decide) (by decide)⟩

/-- Closed instance of `C7_amended_zero_capacity` at the one-byte slice. -/
theorem C7_amended_zero_capacity_witness :
    ((WaterBufferL.with_capacity 0 []).extend_from_slice [65]).asSlice = [65] ∧
    (WaterBufferC.with_capacity 0 []).extend_from_slice [65]
      = WaterBufferC.with_capacity 0 [] :=
  ⟨(C7_amended_zero_capacity [65]).2.2.1, (C7_amended_zero_capacity [65]).2.2.2⟩

/-- Closed instance of `C9_advance_mut_unchecked` with a commit far beyond
the spare capacity of a 4-byte buffer. -/
theorem C9_advance_mut_unchecked_witness :
    ((⟨4, 1, 2, [0, 0, 0, 0]⟩ : WaterBufferL).advance_mut 99).filled_data_length
      = 2 + 99 ∧
    (⟨4, 1, 2, [0, 0, 0, 0]⟩ : WaterBufferL).set_init 99
      = (⟨4, 1, 2, [0, 0, 0, 0]⟩ : WaterBufferL).advance_mut 99 :=
  ⟨(C9_advance_mut_unchecked ⟨4, 1, 2, [0, 0, 0, 0]⟩ 99).1,
   (C9_advance_mut_unchecked ⟨4, 1, 2, [0, 0, 0, 0]⟩ 99).2.2.2.2⟩

/-- Closed instance of `C10_reduce_diverges` at 1000 iterations of fuel. -/
theorem C10_reduce_diverges_witness : circReduce 1000 0 1 = none :=
  C10_reduce_diverges 1000
